import Mathlib

/-!
Verification of the claude-lsp daemon core (src/daemon.ts) against its
natural-language specification.

The TypeScript source is shallowly embedded: JavaScript strings are modelled
as `List Char` (one element per UTF-16 code unit; all characters appearing in
the development are in the basic plane, where one code unit is one character),
`string.length` is `List.length`, and `Buffer.byteLength` is the sum of the
UTF-8 sizes of the characters.  `JSON.stringify` / `JSON.parse` are external
library calls and are passed in as parameters (`stringify : α → List Char`,
`parse : List Char → Option α`, with `none` modelling a thrown exception).
Loops are embedded as fuel-indexed structural recursions; the fuel supplied
by the top-level wrappers is proved sufficient, so the wrappers compute the
same answers as the source loops.
-/

/-! ## Message framer (encodeMessage / parseMessages, daemon.ts lines 104-141) -/

/-- The header/payload separator scanned for by `parseMessages`
(`remaining.indexOf("\r\n\r\n")`). -/
def crlfcrlf : List Char := "\r\n\r\n".toList

/-- The literal header key written by `encodeMessage`. -/
def clHeaderKey : List Char := "Content-Length: ".toList

/-- The lower-cased header key recognised (case-insensitively) by the
regular expression in `parseMessages`. -/
def clKeyLower : List Char := "content-length: ".toList

/-- `l1.isPrefixOf l2` (core library Boolean prefix test) characterised by an
explicit suffix. -/
theorem isPrefixOf_iff (xs ys : List Char) :
    xs.isPrefixOf ys = true ↔ ∃ t, xs ++ t = ys := by
  induction xs generalizing ys with
  | nil => simp [List.isPrefixOf]
  | cons c xs ih =>
    cases ys with
    | nil => simp [List.isPrefixOf]
    | cons d ys =>
      simp only [List.isPrefixOf, Bool.and_eq_true, beq_iff_eq, ih, List.cons_append,
        List.cons.injEq]
      constructor
      · rintro ⟨rfl, t, rfl⟩
        exact ⟨t, rfl, rfl⟩
      · rintro ⟨t, rfl, rfl⟩
        exact ⟨rfl, t, rfl⟩

/-- Models `String.prototype.indexOf` restricted to the uses in the source:
the index of the first occurrence of `needle`, `none` for `-1`. -/
def indexOfSub (needle : List Char) : List Char → Option Nat
  | [] => if needle = [] then some 0 else none
  | c :: rest =>
    if needle.isPrefixOf (c :: rest) then some 0
    else (indexOfSub needle rest).map (fun i => i + 1)

/-- Decimal digit character for a value below ten. -/
def digitChar (d : Nat) : Char := Char.ofNat (48 + d)

/-- Fuel-indexed decimal rendering of a natural number (standard JavaScript
number-to-string conversion for a non-negative integer). -/
def natReprGo : Nat → Nat → List Char
  | 0, _ => []
  | fuel + 1, n =>
    if n < 10 then [digitChar n]
    else natReprGo fuel (n / 10) ++ [digitChar (n % 10)]

/-- Decimal rendering of a natural number; the fuel `n + 1` is sufficient
because the argument shrinks by a factor of ten each step. -/
def natRepr (n : Nat) : List Char := natReprGo (n + 1) n

/-- Models `parseInt(ds, 10)` on a non-empty string of decimal digits. -/
def digitsVal (ds : List Char) : Nat :=
  ds.foldl (fun a c => a * 10 + (c.toNat - 48)) 0

/-- Models `Buffer.byteLength(content)`: the UTF-8 byte count of a string. -/
def byteLength (s : List Char) : Nat := (s.map Char.utf8Size).sum

/-- Models `encodeMessage` (daemon.ts 107-110) applied to a message whose
`JSON.stringify` image is `content`:
`Content-Length: ${Buffer.byteLength(content)}\r\n\r\n${content}`. -/
def encodeMsgStr (content : List Char) : List Char :=
  clHeaderKey ++ natRepr (byteLength content) ++ crlfcrlf ++ content

/-- Models `encodeMessage` (daemon.ts 107-110), with `stringify` standing for
the external `JSON.stringify`. -/
def encodeMessage (stringify : α → List Char) (m : α) : List Char :=
  encodeMsgStr (stringify m)

/-- Whether the regular expression `/Content-Length: (\d+)/i` matches at the
start of `s`: the sixteen-character key compared case-insensitively, followed
by at least one decimal digit. -/
def headerMatchAt (s : List Char) : Bool :=
  decide ((s.take 16).map Char.toLower = clKeyLower) &&
    ((s.drop 16).headD ' ').isDigit

/-- Models `header.match(/Content-Length: (\d+)/i)` followed by
`parseInt(match[1], 10)`: scan left to right for the first position where the
pattern matches and return the value of the maximal digit run captured
there. -/
def headerMatch : List Char → Option Nat
  | [] => none
  | c :: rest =>
    if headerMatchAt (c :: rest) then
      some (digitsVal (((c :: rest).drop 16).takeWhile Char.isDigit))
    else headerMatch rest

/-- `messages.push(JSON.parse(...))` inside `try { } catch {}`: a message that
fails to parse is silently dropped. -/
def consOpt (o : Option α) (ms : List α) : List α :=
  match o with
  | some m => m :: ms
  | none => ms

/-- Fuel-indexed embedding of the `while (true)` loop of `parseMessages`
(daemon.ts 112-141).  Each loop iteration is one recursive step; running out
of fuel returns the current state (proved unreachable for the fuel used by
`parseMessages`). -/
def parseMessagesGo (parse : List Char → Option α) : Nat → List Char → List α × List Char
  | 0, remaining => ([], remaining)
  | fuel + 1, remaining =>
    match indexOfSub crlfcrlf remaining with
    | none => ([], remaining)
    | some headerEnd =>
      match headerMatch (remaining.take headerEnd) with
      | none => parseMessagesGo parse fuel (remaining.drop (headerEnd + 4))
      | some len =>
        if remaining.length < headerEnd + 4 + len then ([], remaining)
        else
          (consOpt (parse ((remaining.drop (headerEnd + 4)).take len))
              (parseMessagesGo parse fuel (remaining.drop (headerEnd + 4 + len))).1,
            (parseMessagesGo parse fuel (remaining.drop (headerEnd + 4 + len))).2)

/-- Models `parseMessages` (daemon.ts 112-141), with `parse` standing for the
external `JSON.parse` (`none` = exception, caught and dropped). -/
def parseMessages (parse : List Char → Option α) (buffer : List Char) : List α × List Char :=
  parseMessagesGo parse (buffer.length + 1) buffer

/-- One socket `data` event of the client (daemon.ts 224-226 / 235-237):
append the chunk to the buffer, run `parseMessages`, keep the remainder and
accumulate the decoded messages. -/
def decodeChunkedStep (parse : List Char → Option α)
    (st : List α × List Char) (chunk : List Char) : List α × List Char :=
  let res := parseMessages parse (st.2 ++ chunk)
  (st.1 ++ res.1, res.2)

/-- Feeding an encoded byte stream to the framer one chunk at a time,
starting from an empty buffer. -/
def decodeChunked (parse : List Char → Option α) (chunks : List (List Char)) :
    List α × List Char :=
  chunks.foldl (decodeChunkedStep parse) ([], [])

/-- Models `JSON.stringify` restricted to plain string values none of whose
characters require an escape sequence: wrap in double quotes. -/
def jsonQuote (s : List Char) : List Char := '"' :: (s ++ ['"'])

/-- Models `JSON.parse` on the same restricted class of payloads: strip the
double quotes, failing (exception) on anything else. -/
def jsonUnquote (s : List Char) : Option (List Char) :=
  match s with
  | '"' :: rest =>
    if rest.getLast? = some '"' ∧ ∀ c ∈ rest.dropLast, c ≠ '"' then
      some rest.dropLast
    else none
  | _ => none

/-! ## Diagnostics data model (utils.ts) -/

/-- LSP position (utils.ts `Position`). -/
structure Position where
  line : Nat
  character : Nat
deriving DecidableEq

/-- LSP range (utils.ts `Range`). -/
structure LspRange where
  start : Position
  stop : Position
deriving DecidableEq

/-- LSP diagnostic (utils.ts `Diagnostic`); optional fields are `Option`. -/
structure Diagnostic where
  range : LspRange
  severity : Option Nat
  code : Option (Nat ⊕ String)
  source : Option String
  message : String
deriving DecidableEq

/-! ## RPC client state (class SimpleLspClient, daemon.ts 212-316) -/

/-- A decoded JSON-RPC message as inspected by `processBuffer`
(daemon.ts 239-248): `id?` is `none` when the object has no `id` key,
`error?` is `none` when `msg.error` is falsy, `result?` is the `result`
payload (kept opaque), `method?` is the `method` key, and `uri` / `diags`
are the fields of `params` read by the diagnostics branch. -/
structure RpcMsg where
  id? : Option Nat
  error? : Option String
  result? : Option String
  method? : Option String
  uri : String
  diags : List Diagnostic
deriving DecidableEq

/-- Settling a pending request's promise: `resolve(msg.result)` or
`reject(new Error(...))`. -/
inductive Outcome where
  | resolved (id : Nat) (result : Option String)
  | rejected (id : Nat) (errMsg : String)
deriving DecidableEq

/-- The mutable fields of one `SimpleLspClient` instance (daemon.ts 213-217);
the pending map is modelled by its key set and the diagnostics map as a
function from URI to its entry. `socketOpen` records whether the transport
connection is up. -/
structure ClientState where
  socketOpen : Bool
  buffer : List Char
  requestId : Nat
  pending : Nat → Bool
  diagnostics : String → Option (List Diagnostic)

/-- A freshly constructed client: `requestId = 0`, empty maps. -/
def initClient : ClientState :=
  { socketOpen := true
    buffer := []
    requestId := 0
    pending := fun _ => false
    diagnostics := fun _ => none }

/-- The method name of the diagnostics push notification. -/
def publishMethod : String := "textDocument/publishDiagnostics"

/-- The rejection message used on request timeout (daemon.ts 263). -/
def requestTimeoutMsg : String := "Request timeout"

/-- Dispatch of one decoded message (daemon.ts 239-248): a message whose `id`
is a pending key settles that request and removes it; otherwise a
`textDocument/publishDiagnostics` notification replaces its URI's entry in
the diagnostics map; anything else is ignored. -/
def handleMessage (s : ClientState) (msg : RpcMsg) : ClientState × Option Outcome :=
  match msg.id? with
  | some i =>
    if s.pending i then
      let s' := { s with pending := fun j => if j = i then false else s.pending j }
      match msg.error? with
      | some e => (s', some (Outcome.rejected i e))
      | none => (s', some (Outcome.resolved i msg.result?))
    else if msg.method? = some publishMethod then
      ({ s with diagnostics := fun u => if u = msg.uri then some msg.diags else s.diagnostics u },
        none)
    else (s, none)
  | none =>
    if msg.method? = some publishMethod then
      ({ s with diagnostics := fun u => if u = msg.uri then some msg.diags else s.diagnostics u },
        none)
    else (s, none)

/-- `processBuffer` (daemon.ts 235-249): parse the buffer, keep the
remainder, and dispatch the decoded messages in order. -/
def processBuffer (parseMsg : List Char → Option RpcMsg) (s : ClientState) :
    ClientState × List Outcome :=
  let res := parseMessages parseMsg s.buffer
  res.1.foldl
    (fun acc msg =>
      let step := handleMessage acc.1 msg
      (step.1, acc.2 ++ (step.2.toList)))
    ({ s with buffer := res.2 }, [])

/-- Issuing one outbound request (daemon.ts 255-259): `const id =
++this.requestId`, insert the id into the pending map, return the id. -/
def request (s : ClientState) : Nat × ClientState :=
  let i := s.requestId + 1
  (i, { s with requestId := i, pending := fun j => if j = i then true else s.pending j })

/-- The `setTimeout` body for a request id (daemon.ts 260-265): if the id is
still pending, remove it and reject with the timeout error; otherwise do
nothing. -/
def fireTimeout (s : ClientState) (i : Nat) : ClientState × Option Outcome :=
  if s.pending i then
    ({ s with pending := fun j => if j = i then false else s.pending j },
      some (Outcome.rejected i requestTimeoutMsg))
  else (s, none)

/-- One event in the life of a client: issuing a request, a decoded inbound
message being dispatched, or a request-timeout timer firing. -/
inductive ClientOp where
  | issueRequest
  | deliver (msg : RpcMsg)
  | timeout (i : Nat)

/-- Apply one event; the second component lists the request ids issued by the
event (empty except for `issueRequest`). -/
def stepOp (s : ClientState) : ClientOp → ClientState × List Nat
  | ClientOp.issueRequest =>
    let r := request s
    (r.2, [r.1])
  | ClientOp.deliver msg => ((handleMessage s msg).1, [])
  | ClientOp.timeout i => ((fireTimeout s i).1, [])

/-- Run a sequence of events, collecting every issued request id in order. -/
def runOps (s : ClientState) : List ClientOp → ClientState × List Nat
  | [] => (s, [])
  | op :: ops =>
    let st := stepOp s op
    let rest := runOps st.1 ops
    (rest.1, st.2 ++ rest.2)

/-! ## Diagnostics queries (daemon.ts 299-311) -/

/-- `getDiagnostics` (daemon.ts 299-301): `this.diagnostics.get(uri) ?? []`. -/
def getDiagnostics (dm : String → Option (List Diagnostic)) (uri : String) : List Diagnostic :=
  (dm uri).getD []

/-- Fuel-indexed embedding of the polling loop of `waitForDiagnostics`
(daemon.ts 303-311).  `entry k` is the diagnostics-map entry for the queried
uri at the k-th poll; each loop iteration takes `Bun.sleep(100)` milliseconds,
so the k-th poll happens while `100 * k < timeoutMs`.  Exhausted fuel returns
`[]`, which coincides with the loop's timeout result for the fuel used by
`waitForDiagnostics`. -/
def waitGo (entry : Nat → Option (List Diagnostic)) (timeoutMs : Nat) :
    Nat → Nat → List Diagnostic
  | 0, _ => []
  | fuel + 1, k =>
    if 100 * k < timeoutMs then
      match entry k with
      | some d => d
      | none => waitGo entry timeoutMs fuel (k + 1)
    else []

/-- Models `waitForDiagnostics(uri, timeoutMs)` (daemon.ts 303-311): poll
every 100 ms until the entry appears or the timeout elapses, returning `[]`
on timeout. -/
def waitForDiagnostics (entry : Nat → Option (List Diagnostic)) (timeoutMs : Nat) :
    List Diagnostic :=
  waitGo entry timeoutMs (timeoutMs / 100 + 1) 0

/-! ## Daemon state store (daemon.ts 10-16, 41-55) -/

/-- The persisted daemon record (daemon.ts `interface DaemonState`). -/
structure DaemonState where
  pid : Nat
  port : Nat
  projectPath : String
  startedAt : Nat
  initialized : Bool
deriving DecidableEq

/-- The observable content of the state file for one project: missing
(`existsSync` false, or deleted), present but failing `JSON.parse`
(malformed), or present and parsing to a record. -/
inductive StateFile where
  | missing
  | malformed
  | valid (st : DaemonState)
deriving DecidableEq

/-- Models `getDaemonState` (daemon.ts 41-55) together with its effect on the
state file.  `alive pid` models `isProcessRunning(pid)` (a `kill(pid, 0)`
probe).  Returns the record read (or `none`) and the state file afterwards:
a record whose process is dead is deleted (`unlinkSync`); a missing or
malformed file is left alone and reported as `none` (the `catch` swallows the
parse error). -/
def getDaemonState (alive : Nat → Bool) : StateFile → Option DaemonState × StateFile
  | StateFile.missing => (none, StateFile.missing)
  | StateFile.malformed => (none, StateFile.malformed)
  | StateFile.valid st =>
    if alive st.pid then (some st, StateFile.valid st)
    else (none, StateFile.missing)

/-! ## Port allocation (daemon.ts 8, 82-102, 154) -/

/-- `BASE_PORT` (daemon.ts 8). -/
def BASE_PORT : Nat := 19200

/-- The `for (let port = start; port < start + 100; port++)` probe loop of
`findFreePort` (daemon.ts 82-102), counting down the remaining attempts;
`free p` models a successful `Bun.listen` bind-and-release at port `p`.
`none` models the `throw new Error("No free port found")`. -/
def findFreePortGo (free : Nat → Bool) : Nat → Nat → Option Nat
  | _, 0 => none
  | port, count + 1 =>
    if free port then some port else findFreePortGo free (port + 1) count

/-- Models `findFreePort(start)` (daemon.ts 82-102): probe 100 consecutive
ports starting at `start`. -/
def findFreePort (free : Nat → Bool) (start : Nat) : Option Nat :=
  findFreePortGo free start 100

/-- The probe start used by `spawnDaemon` (daemon.ts 154):
`BASE_PORT + parseInt(hashPath(projectPath), 16) % 100`, with `hashVal`
standing for the numeric value of the (external) sha-256 based path hash. -/
def daemonStartPort (hashVal : Nat) : Nat := BASE_PORT + hashVal % 100

/-- The port allocated by `spawnDaemon` for a project whose hash value is
`hashVal` (daemon.ts 154). -/
def spawnDaemonPort (free : Nat → Bool) (hashVal : Nat) : Option Nat :=
  findFreePort free (daemonStartPort hashVal)

/-! ## Lemmas about the framer's building blocks -/

theorem crlfcrlf_eq : crlfcrlf = ['\r', '\n', '\r', '\n'] := rfl

theorem indexOfSub_length (needle hay : List Char) (i : Nat)
    (h : indexOfSub needle hay = some i) : i + needle.length ≤ hay.length := by
  induction hay generalizing i with
  | nil =>
    simp only [indexOfSub] at h
    split at h
    · cases h
      simp_all
    · cases h
  | cons c rest ih =>
    simp only [indexOfSub] at h
    split at h
    · cases h
      rename_i hpre
      obtain ⟨t, ht⟩ := (isPrefixOf_iff _ _).mp hpre
      have := congrArg List.length ht
      simp at this
      simp only [List.length_cons]
      omega
    · rw [Option.map_eq_some'] at h
      obtain ⟨j, hj, rfl⟩ := h
      have := ih j hj
      simp only [List.length_cons]
      omega

theorem indexOfSub_of_isPrefixOf (hay : List Char)
    (h : crlfcrlf.isPrefixOf hay = true) : indexOfSub crlfcrlf hay = some 0 := by
  cases hay with
  | nil =>
    obtain ⟨t, ht⟩ := (isPrefixOf_iff _ _).mp h
    simp [crlfcrlf_eq] at ht
  | cons c rest => simp only [indexOfSub, if_pos h]

theorem indexOfSub_short (hay : List Char) (h : hay.length < 4) :
    indexOfSub crlfcrlf hay = none := by
  cases hidx : indexOfSub crlfcrlf hay with
  | none => rfl
  | some i =>
    have := indexOfSub_length _ _ _ hidx
    rw [crlfcrlf_eq] at this
    simp at this
    omega

theorem indexOfSub_append_left (H t : List Char) (hH : ∀ c ∈ H, c ≠ '\r') :
    indexOfSub crlfcrlf (H ++ t) =
      (indexOfSub crlfcrlf t).map (fun i => i + H.length) := by
  induction H with
  | nil =>
    simp only [List.nil_append, List.length_nil]
    cases indexOfSub crlfcrlf t <;> simp
  | cons c rest ih =>
    have hc : c ≠ '\r' := hH c (List.mem_cons_self c rest)
    have hrest : ∀ x ∈ rest, x ≠ '\r' := fun x hx => hH x (List.mem_cons_of_mem c hx)
    have hpre : crlfcrlf.isPrefixOf (c :: (rest ++ t)) = false := by
      rw [crlfcrlf_eq]
      simp only [List.isPrefixOf, Bool.and_eq_false_iff]
      left
      simp [beq_eq_false_iff_ne]
      exact fun he => hc he.symm
    simp only [List.cons_append, indexOfSub, List.append_eq]
    rw [hpre]
    simp only [Bool.false_eq_true, if_false]
    rw [ih hrest]
    cases indexOfSub crlfcrlf t with
    | none => rfl
    | some v =>
      simp only [Option.map_some', List.length_cons, Option.some.injEq]
      omega

theorem indexOfSub_header (H t : List Char) (hH : ∀ c ∈ H, c ≠ '\r') :
    indexOfSub crlfcrlf (H ++ (crlfcrlf ++ t)) = some H.length := by
  rw [indexOfSub_append_left H _ hH]
  rw [indexOfSub_of_isPrefixOf _ ((isPrefixOf_iff _ _).mpr ⟨t, rfl⟩)]
  simp

theorem digitChar_isDigit (d : Nat) (h : d < 10) : (digitChar d).isDigit = true := by
  interval_cases d <;> decide

theorem digitChar_toNat (d : Nat) (h : d < 10) : (digitChar d).toNat = 48 + d := by
  interval_cases d <;> decide

theorem isDigit_ne_cr (c : Char) (h : c.isDigit = true) : c ≠ '\r' := by
  rintro rfl
  simp [Char.isDigit] at h

theorem natReprGo_isDigit (fuel n : Nat) : ∀ c ∈ natReprGo fuel n, c.isDigit = true := by
  induction fuel generalizing n with
  | zero => simp [natReprGo]
  | succ fuel ih =>
    intro c hc
    simp only [natReprGo] at hc
    split at hc
    · simp at hc
      subst hc
      exact digitChar_isDigit n (by omega)
    · rw [List.mem_append] at hc
      rcases hc with hc | hc
      · exact ih _ c hc
      · simp at hc
        subst hc
        exact digitChar_isDigit _ (Nat.mod_lt n (by omega))

theorem natRepr_isDigit (n : Nat) : ∀ c ∈ natRepr n, c.isDigit = true :=
  natReprGo_isDigit _ n

theorem natRepr_ne_cr (n : Nat) : ∀ c ∈ natRepr n, c ≠ '\r' :=
  fun c hc => isDigit_ne_cr c (natRepr_isDigit n c hc)

theorem natReprGo_ne_nil (fuel n : Nat) (h : 0 < fuel) : natReprGo fuel n ≠ [] := by
  cases fuel with
  | zero => omega
  | succ fuel =>
    simp only [natReprGo]
    split <;> simp

theorem natRepr_ne_nil (n : Nat) : natRepr n ≠ [] := natReprGo_ne_nil _ n (by omega)

theorem digitsVal_append (a : List Char) (c : Char) :
    digitsVal (a ++ [c]) = digitsVal a * 10 + (c.toNat - 48) := by
  simp [digitsVal, List.foldl_append]

theorem digitsVal_natReprGo (fuel n : Nat) (h : n < fuel) :
    digitsVal (natReprGo fuel n) = n := by
  induction fuel generalizing n with
  | zero => omega
  | succ fuel ih =>
    simp only [natReprGo]
    split
    · rename_i hn
      have : digitsVal [digitChar n] = (digitChar n).toNat - 48 := by
        simp [digitsVal]
      rw [this, digitChar_toNat n hn]
      omega
    · rename_i hn
      rw [digitsVal_append, ih (n / 10) (by omega), digitChar_toNat _ (Nat.mod_lt n (by omega))]
      omega

theorem digitsVal_natRepr (n : Nat) : digitsVal (natRepr n) = n :=
  digitsVal_natReprGo _ n (Nat.lt_succ_self n)

theorem clHeaderKey_ne_cr : ∀ c ∈ clHeaderKey, c ≠ '\r' := by decide

theorem clHeader_ne_cr (n : Nat) : ∀ c ∈ clHeaderKey ++ natRepr n, c ≠ '\r' := by
  intro c hc
  rcases List.mem_append.mp hc with h | h
  · exact clHeaderKey_ne_cr c h
  · exact natRepr_ne_cr n c h

theorem clHeaderKey_length : clHeaderKey.length = 16 := rfl

theorem takeWhile_all (p : Char → Bool) (l : List Char) (h : ∀ c ∈ l, p c = true) :
    l.takeWhile p = l :=
  List.takeWhile_eq_self_iff.mpr h

theorem headerMatchAt_clHeader (n : Nat) :
    headerMatchAt (clHeaderKey ++ natRepr n) = true := by
  have htake : (clHeaderKey ++ natRepr n).take 16 = clHeaderKey :=
    List.take_left' clHeaderKey_length
  have hdrop : (clHeaderKey ++ natRepr n).drop 16 = natRepr n :=
    List.drop_left' clHeaderKey_length
  simp only [headerMatchAt, htake, hdrop, Bool.and_eq_true, decide_eq_true_eq]
  constructor
  · decide
  · cases hnr : natRepr n with
    | nil => exact absurd hnr (natRepr_ne_nil n)
    | cons c rest =>
      have : c ∈ natRepr n := by
        rw [hnr]
        exact List.mem_cons_self c rest
      simpa using natRepr_isDigit n c this

theorem headerMatch_eq_of_matchAt (s : List Char) (hne : s ≠ [])
    (hm : headerMatchAt s = true) :
    headerMatch s = some (digitsVal ((s.drop 16).takeWhile Char.isDigit)) := by
  cases s with
  | nil => exact absurd rfl hne
  | cons c rest => simp only [headerMatch, if_pos hm]

theorem headerMatch_clHeader (n : Nat) :
    headerMatch (clHeaderKey ++ natRepr n) = some n := by
  rw [headerMatch_eq_of_matchAt _ (by simp [clHeaderKey]) (headerMatchAt_clHeader n)]
  rw [List.drop_left' clHeaderKey_length]
  rw [takeWhile_all _ _ (natRepr_isDigit n), digitsVal_natRepr]

theorem indexOfSub_crlf_bound (hay : List Char) (h : Nat)
    (hidx : indexOfSub crlfcrlf hay = some h) : h + 4 ≤ hay.length := by
  have := indexOfSub_length _ _ _ hidx
  rw [crlfcrlf_eq] at this
  simpa using this

theorem parseMessagesGo_fuel (parse : List Char → Option α) :
    ∀ f g (remaining : List Char), remaining.length < f → remaining.length < g →
      parseMessagesGo parse f remaining = parseMessagesGo parse g remaining := by
  intro f
  induction f with
  | zero =>
    intro g remaining h
    omega
  | succ f ih =>
    intro g remaining hf hg
    cases g with
    | zero => omega
    | succ g =>
      simp only [parseMessagesGo]
      cases hidx : indexOfSub crlfcrlf remaining with
      | none => simp only [hidx]
      | some headerEnd =>
        simp only [hidx]
        have hbound := indexOfSub_crlf_bound _ _ hidx
        cases hdr : headerMatch (remaining.take headerEnd) with
        | none =>
          simp only [hdr]
          have hlt : (remaining.drop (headerEnd + 4)).length < remaining.length := by
            rw [List.length_drop]
            omega
          exact ih g (remaining.drop (headerEnd + 4)) (by omega) (by omega)
        | some len =>
          simp only [hdr]
          by_cases hfin : remaining.length < headerEnd + 4 + len
          · simp only [if_pos hfin]
          · simp only [if_neg hfin]
            have hlt : (remaining.drop (headerEnd + 4 + len)).length < remaining.length := by
              rw [List.length_drop]
              omega
            rw [ih g (remaining.drop (headerEnd + 4 + len)) (by omega) (by omega)]

theorem parseMessages_nil (parse : List Char → Option α) :
    parseMessages parse [] = ([], []) := rfl

theorem parseMessages_no_sep (parse : List Char → Option α) (buffer : List Char)
    (h : indexOfSub crlfcrlf buffer = none) : parseMessages parse buffer = ([], buffer) := by
  unfold parseMessages
  simp only [parseMessagesGo, h]

theorem parseMessagesGo_succ (parse : List Char → Option α) (fuel : Nat)
    (remaining : List Char) :
    parseMessagesGo parse (fuel + 1) remaining =
      match indexOfSub crlfcrlf remaining with
      | none => ([], remaining)
      | some headerEnd =>
        match headerMatch (remaining.take headerEnd) with
        | none => parseMessagesGo parse fuel (remaining.drop (headerEnd + 4))
        | some len =>
          if remaining.length < headerEnd + 4 + len then ([], remaining)
          else
            (consOpt (parse ((remaining.drop (headerEnd + 4)).take len))
                (parseMessagesGo parse fuel (remaining.drop (headerEnd + 4 + len))).1,
              (parseMessagesGo parse fuel (remaining.drop (headerEnd + 4 + len))).2) := rfl

theorem parseMessages_encode_append (parse : List Char → Option α) (C rest : List Char)
    (hA : byteLength C = C.length) :
    parseMessages parse (encodeMsgStr C ++ rest) =
      (consOpt (parse C) (parseMessages parse rest).1, (parseMessages parse rest).2) := by
  have hHcr : ∀ c ∈ clHeaderKey ++ natRepr (byteLength C), c ≠ '\r' := clHeader_ne_cr _
  have hbuf : encodeMsgStr C ++ rest =
      (clHeaderKey ++ natRepr (byteLength C)) ++ (crlfcrlf ++ (C ++ rest)) := by
    simp [encodeMsgStr, List.append_assoc]
  have hHlen : (clHeaderKey ++ natRepr (byteLength C)).length =
      16 + (natRepr (byteLength C)).length := by
    rw [List.length_append, clHeaderKey_length]
  have hlenbuf : ((clHeaderKey ++ natRepr (byteLength C)) ++ (crlfcrlf ++ (C ++ rest))).length =
      (clHeaderKey ++ natRepr (byteLength C)).length + 4 + C.length + rest.length := by
    simp [crlfcrlf_eq]
    omega
  have hassoc : (clHeaderKey ++ natRepr (byteLength C)) ++ (crlfcrlf ++ (C ++ rest)) =
      ((clHeaderKey ++ natRepr (byteLength C)) ++ crlfcrlf) ++ (C ++ rest) := by
    simp [List.append_assoc]
  have hdrop1 : ((clHeaderKey ++ natRepr (byteLength C)) ++ (crlfcrlf ++ (C ++ rest))).drop
      ((clHeaderKey ++ natRepr (byteLength C)).length + 4) = C ++ rest := by
    rw [hassoc]
    exact List.drop_left' (by simp [crlfcrlf_eq]; omega)
  have hdrop2 : ((clHeaderKey ++ natRepr (byteLength C)) ++ (crlfcrlf ++ (C ++ rest))).drop
      ((clHeaderKey ++ natRepr (byteLength C)).length + 4 + byteLength C) = rest := by
    rw [hassoc, show ((clHeaderKey ++ natRepr (byteLength C)) ++ crlfcrlf) ++ (C ++ rest) =
      (((clHeaderKey ++ natRepr (byteLength C)) ++ crlfcrlf) ++ C) ++ rest by
        simp [List.append_assoc]]
    exact List.drop_left' (by simp [crlfcrlf_eq, hA]; omega)
  have htake : (C ++ rest).take (byteLength C) = C := by
    rw [hA]
    exact List.take_left C rest
  rw [hbuf]
  unfold parseMessages
  rw [parseMessagesGo_succ]
  simp only [indexOfSub_header _ _ hHcr, List.take_left, headerMatch_clHeader]
  rw [if_neg (by omega)]
  rw [hdrop1, hdrop2, htake]
  rw [parseMessagesGo_fuel parse _ (rest.length + 1) rest (by omega) (by omega)]

theorem indexOfSub_crlf_nil : indexOfSub crlfcrlf [] = none := by
  simp [indexOfSub, crlfcrlf_eq]

theorem parseMessages_encode_prefix (parse : List Char → Option α) (C p t : List Char)
    (hA : byteLength C = C.length) (hsplit : p ++ t = encodeMsgStr C) (ht : t ≠ []) :
    parseMessages parse p = ([], p) := by
  have hHcr : ∀ c ∈ clHeaderKey ++ natRepr (byteLength C), c ≠ '\r' := clHeader_ne_cr _
  have hcl4 : crlfcrlf.length = 4 := rfl
  have hHlen : (clHeaderKey ++ natRepr (byteLength C)).length =
      16 + (natRepr (byteLength C)).length := by
    rw [List.length_append, clHeaderKey_length]
  have hE : encodeMsgStr C =
      (clHeaderKey ++ natRepr (byteLength C)) ++ (crlfcrlf ++ C) := by
    simp [encodeMsgStr, List.append_assoc]
  have hElen : (encodeMsgStr C).length =
      (clHeaderKey ++ natRepr (byteLength C)).length + 4 + C.length := by
    rw [hE]
    simp [crlfcrlf_eq]
    omega
  have hlenpt : p.length + t.length = (encodeMsgStr C).length := by
    rw [← hsplit]
    simp
  have htpos : 0 < t.length := List.length_pos.mpr ht
  have hplt : p.length < (encodeMsgStr C).length := by omega
  have hp : p = (encodeMsgStr C).take p.length := by
    rw [← hsplit, List.take_left]
  rcases Nat.lt_or_ge p.length ((clHeaderKey ++ natRepr (byteLength C)).length + 4)
    with hcase | hcase
  · rcases le_or_lt p.length ((clHeaderKey ++ natRepr (byteLength C)).length) with hc1 | hc1
    · have hpH0 : (encodeMsgStr C).take p.length =
          (clHeaderKey ++ natRepr (byteLength C)).take p.length := by
        rw [hE]
        exact List.take_append_of_le_length hc1
      have hpH : p = (clHeaderKey ++ natRepr (byteLength C)).take p.length := hp.trans hpH0
      have hpcr : ∀ c ∈ p, c ≠ '\r' := by
        intro c hc
        rw [hpH] at hc
        exact hHcr c (List.mem_of_mem_take hc)
      have hnone : indexOfSub crlfcrlf p = none := by
        have h2 := indexOfSub_append_left p [] hpcr
        rw [List.append_nil, indexOfSub_crlf_nil] at h2
        simpa using h2
      exact parseMessages_no_sep parse p hnone
    · have e1 : ((clHeaderKey ++ natRepr (byteLength C)) ++ (crlfcrlf ++ C)).take p.length =
          (clHeaderKey ++ natRepr (byteLength C)).take p.length ++
            (crlfcrlf ++ C).take
              (p.length - (clHeaderKey ++ natRepr (byteLength C)).length) :=
        List.take_append_eq_append_take
      have e2 : (clHeaderKey ++ natRepr (byteLength C)).take p.length =
          clHeaderKey ++ natRepr (byteLength C) :=
        List.take_of_length_le (by omega)
      have e3 : (crlfcrlf ++ C).take
            (p.length - (clHeaderKey ++ natRepr (byteLength C)).length) =
          crlfcrlf.take (p.length - (clHeaderKey ++ natRepr (byteLength C)).length) :=
        List.take_append_of_le_length (by rw [hcl4]; omega)
      have hps0 : (encodeMsgStr C).take p.length = (clHeaderKey ++ natRepr (byteLength C)) ++
          crlfcrlf.take (p.length - (clHeaderKey ++ natRepr (byteLength C)).length) := by
        rw [hE, e1, e2, e3]
      have hps : p = (clHeaderKey ++ natRepr (byteLength C)) ++
          crlfcrlf.take (p.length - (clHeaderKey ++ natRepr (byteLength C)).length) :=
        hp.trans hps0
      have hnone : indexOfSub crlfcrlf p = none := by
        rw [hps, indexOfSub_append_left _ _ hHcr,
          indexOfSub_short _ (by rw [List.length_take]; omega)]
        rfl
      exact parseMessages_no_sep parse p hnone
  · have e1 : ((clHeaderKey ++ natRepr (byteLength C)) ++ (crlfcrlf ++ C)).take p.length =
        (clHeaderKey ++ natRepr (byteLength C)).take p.length ++
          (crlfcrlf ++ C).take
            (p.length - (clHeaderKey ++ natRepr (byteLength C)).length) :=
      List.take_append_eq_append_take
    have e2 : (clHeaderKey ++ natRepr (byteLength C)).take p.length =
        clHeaderKey ++ natRepr (byteLength C) :=
      List.take_of_length_le (by omega)
    have e3 : (crlfcrlf ++ C).take
          (p.length - (clHeaderKey ++ natRepr (byteLength C)).length) =
        crlfcrlf.take (p.length - (clHeaderKey ++ natRepr (byteLength C)).length) ++
          C.take (p.length - (clHeaderKey ++ natRepr (byteLength C)).length -
            crlfcrlf.length) :=
      List.take_append_eq_append_take
    have e4 : crlfcrlf.take (p.length - (clHeaderKey ++ natRepr (byteLength C)).length) =
        crlfcrlf :=
      List.take_of_length_le (by rw [hcl4]; omega)
    have e5 : p.length - (clHeaderKey ++ natRepr (byteLength C)).length - crlfcrlf.length =
        p.length - ((clHeaderKey ++ natRepr (byteLength C)).length + 4) := by
      rw [hcl4]
      omega
    have hpc0 : (encodeMsgStr C).take p.length = (clHeaderKey ++ natRepr (byteLength C)) ++
        (crlfcrlf ++
          C.take (p.length - ((clHeaderKey ++ natRepr (byteLength C)).length + 4))) := by
      rw [hE, e1, e2, e3, e4, e5]
    have hpc : p = (clHeaderKey ++ natRepr (byteLength C)) ++ (crlfcrlf ++
        C.take (p.length - ((clHeaderKey ++ natRepr (byteLength C)).length + 4))) :=
      hp.trans hpc0
    have hclen : (C.take (p.length - ((clHeaderKey ++ natRepr (byteLength C)).length + 4))).length
        < C.length := by
      rw [List.length_take]
      omega
    have hplen : ((clHeaderKey ++ natRepr (byteLength C)) ++ (crlfcrlf ++
        C.take (p.length - ((clHeaderKey ++ natRepr (byteLength C)).length + 4)))).length =
        (clHeaderKey ++ natRepr (byteLength C)).length + 4 +
          (C.take (p.length - ((clHeaderKey ++ natRepr (byteLength C)).length + 4))).length := by
      simp [crlfcrlf_eq]
      omega
    rw [hpc]
    unfold parseMessages
    rw [parseMessagesGo_succ]
    simp only [indexOfSub_header _ _ hHcr, List.take_left, headerMatch_clHeader]
    rw [if_pos (by rw [hplen]; omega)]

theorem decodeChunked_nil_chunks (parse : List Char → Option α) :
    ∀ (chunks : List (List Char)) (acc : List α), (∀ c ∈ chunks, c = []) →
      chunks.foldl (decodeChunkedStep parse) (acc, []) = (acc, []) := by
  intro chunks
  induction chunks with
  | nil =>
    intro acc _
    rfl
  | cons c cs ih =>
    intro acc h
    have hc : c = [] := h c (List.mem_cons_self c cs)
    subst hc
    simp only [List.foldl_cons]
    have hstep : decodeChunkedStep parse (acc, []) [] = (acc, []) := by
      simp [decodeChunkedStep, parseMessages_nil]
    rw [hstep]
    exact ih acc (fun x hx => h x (List.mem_cons_of_mem _ hx))

theorem decodeChunked_encode (parse : List Char → Option α) (C : List Char) (mv : α)
    (hA : byteLength C = C.length) (hparse : parse C = some mv) :
    ∀ (chunks : List (List Char)) (p : List Char),
      p ++ chunks.flatten = encodeMsgStr C → p ≠ encodeMsgStr C →
      chunks.foldl (decodeChunkedStep parse) (([] : List α), p) = ([mv], []) := by
  intro chunks
  induction chunks with
  | nil =>
    intro p hsplit hne
    simp only [List.flatten_nil, List.append_nil] at hsplit
    exact absurd hsplit hne
  | cons ch cs ih =>
    intro p hsplit hne
    simp only [List.flatten_cons] at hsplit
    simp only [List.foldl_cons]
    have hsplit' : (p ++ ch) ++ cs.flatten = encodeMsgStr C := by
      rw [List.append_assoc]
      exact hsplit
    by_cases hfull : p ++ ch = encodeMsgStr C
    · have hcs : cs.flatten = [] := by
        rw [hfull] at hsplit'
        have hlen := congrArg List.length hsplit'
        simp only [List.length_append] at hlen
        have : cs.flatten.length = 0 := by omega
        exact List.length_eq_zero.mp this
      have hpmE : parseMessages parse (encodeMsgStr C) = ([mv], []) := by
        have h2 := parseMessages_encode_append parse C [] hA
        rw [List.append_nil] at h2
        rw [h2, parseMessages_nil, hparse]
        rfl
      have hstep : decodeChunkedStep parse (([] : List α), p) ch = ([mv], []) := by
        simp only [decodeChunkedStep]
        rw [hfull, hpmE]
        rfl
      rw [hstep]
      exact decodeChunked_nil_chunks parse cs [mv] (List.flatten_eq_nil_iff.mp hcs)
    · have htne : cs.flatten ≠ [] := by
        intro hnil
        apply hfull
        rw [hnil, List.append_nil] at hsplit'
        exact hsplit'
      have hpm : parseMessages parse (p ++ ch) = ([], p ++ ch) :=
        parseMessages_encode_prefix parse C (p ++ ch) cs.flatten hA hsplit' htne
      have hstep : decodeChunkedStep parse (([] : List α), p) ch = ([], p ++ ch) := by
        simp only [decodeChunkedStep]
        rw [hpm]
        rfl
      rw [hstep]
      exact ih (p ++ ch) hsplit' hfull

theorem encodeMessage_def (stringify : α → List Char) (m : α) :
    encodeMessage stringify m = encodeMsgStr (stringify m) := rfl

theorem clHeaderKey_ne_nil : clHeaderKey ≠ [] := by decide

/-! ## Claim theorems: message framer -/

/-- Claim C1, counterexample to the claim as stated: for the message that is
the JSON string containing the single non-ASCII character 'é' (payload `"é"`:
three UTF-16 code units, four UTF-8 bytes), decoding the encoding delivered
whole-message-at-once yields no messages and retains the entire buffer,
because the byte count in the header exceeds the code-unit count that
`parseMessages` compares against `remaining.length`. -/
theorem framer_round_trip_cex :
    decodeChunked jsonUnquote [encodeMessage jsonQuote [ 'é' ]] ≠
      ([[ 'é' ]], ([] : List Char)) := by decide

/-- Claim C1 (amended): for every message whose JSON encoding consists only
of single-byte (ASCII) characters — so its UTF-8 byte length equals its
code-unit length — decoding the encoding of the message, delivered in chunks
split at arbitrary byte boundaries (for ASCII data, byte boundaries and
character boundaries coincide), yields exactly the one-element list with the
message and an empty remaining buffer. -/
theorem framer_round_trip_ascii (stringify : α → List Char)
    (parse : List Char → Option α) (m : α) (chunks : List (List Char))
    (hparse : parse (stringify m) = some m)
    (hA : byteLength (stringify m) = (stringify m).length)
    (hchunks : chunks.flatten = encodeMessage stringify m) :
    decodeChunked parse chunks = ([m], []) := by
  unfold decodeChunked
  refine decodeChunked_encode parse (stringify m) m hA hparse chunks []
    (by simpa [encodeMessage_def] using hchunks) ?side
  intro h
  have hlen := congrArg List.length h
  rw [encodeMsgStr] at hlen
  simp only [List.length_nil, List.length_append, clHeaderKey_length] at hlen
  omega

/-- Concrete instance of the amended round trip: the ASCII message
`"ok"` split into two chunks decodes back to exactly that message. -/
theorem framer_round_trip_ascii_witness :
    jsonUnquote (jsonQuote ("ok".toList)) = some ("ok".toList) ∧
    decodeChunked jsonUnquote
        [(encodeMessage jsonQuote ("ok".toList)).take 5,
          (encodeMessage jsonQuote ("ok".toList)).drop 5] = ([ "ok".toList ], []) :=
  ⟨by decide,
    framer_round_trip_ascii jsonQuote jsonUnquote ("ok".toList)
      [(encodeMessage jsonQuote ("ok".toList)).take 5,
        (encodeMessage jsonQuote ("ok".toList)).drop 5]
      (by decide) (by decide) (by decide)⟩

/-- Claim C7, counterexample to the claim as stated: a buffer holding two
complete header+payload frames (the first with the non-ASCII payload `"é"`)
followed by an incomplete trailing header does not decode to the two
messages: the byte-length header of the first frame makes the parser slice
one code unit into the second frame, desynchronising the stream. -/
theorem frames_then_tail_cex :
    parseMessages jsonUnquote
        (encodeMessage jsonQuote [ 'é' ] ++ encodeMessage jsonQuote ("ab".toList) ++
          ("Content-Le".toList)) ≠
      ([[ 'é' ], "ab".toList ], "Content-Le".toList) := by decide

/-- Claim C7 (amended): for a buffer consisting of any sequence of complete
frames whose payloads are ASCII-only, followed by partial trailing data —
either trailing data containing no header delimiter at all, or a strict
prefix of a further ASCII-payload frame, which covers a complete well-formed
header followed by an incomplete payload — decode returns exactly the framed
messages in order and the remaining buffer is the trailing data verbatim. -/
theorem frames_then_tail (stringify : α → List Char) (parse : List Char → Option α)
    (ms : List α) (tail : List Char)
    (hmsg : ∀ m ∈ ms, parse (stringify m) = some m ∧
      byteLength (stringify m) = (stringify m).length)
    (htail : indexOfSub crlfcrlf tail = none ∨
      ∃ (C t : List Char), byteLength C = C.length ∧ tail ++ t = encodeMsgStr C ∧
        t ≠ []) :
    parseMessages parse ((ms.map (encodeMessage stringify)).flatten ++ tail) =
      (ms, tail) := by
  induction ms with
  | nil =>
    simp only [List.map_nil, List.flatten_nil, List.nil_append]
    rcases htail with h | ⟨C, t, hA, hsplit, ht⟩
    · exact parseMessages_no_sep parse tail h
    · exact parseMessages_encode_prefix parse C tail t hA hsplit ht
  | cons m ms ih =>
    simp only [List.map_cons, List.flatten_cons, List.append_assoc, encodeMessage_def]
    rw [parseMessages_encode_append parse (stringify m) _
      (hmsg m (List.mem_cons_self m ms)).2]
    have ihh := ih (fun x hx => hmsg x (List.mem_cons_of_mem _ hx))
    rw [ihh, (hmsg m (List.mem_cons_self m ms)).1]
    rfl

/-- Concrete instances of the amended claim: two complete ASCII frames plus
the incomplete header `Content-Le` decode to both messages with the tail
preserved verbatim, and likewise when the trailing data is a complete header
followed by an incomplete payload (`Content-Length: 10` announcing ten bytes
of which only three are present). -/
theorem frames_then_tail_witness :
    parseMessages jsonUnquote
        (encodeMessage jsonQuote ("ab".toList) ++ encodeMessage jsonQuote ("xy".toList) ++
          ("Content-Le".toList)) =
      ([ "ab".toList, "xy".toList ], "Content-Le".toList) ∧
    parseMessages jsonUnquote
        (encodeMessage jsonQuote ("ab".toList) ++ encodeMessage jsonQuote ("xy".toList) ++
          ("Content-Length: 10\r\n\r\nabc".toList)) =
      ([ "ab".toList, "xy".toList ], "Content-Length: 10\r\n\r\nabc".toList) := by
  constructor
  · have h := frames_then_tail jsonQuote jsonUnquote [ "ab".toList, "xy".toList ]
      ("Content-Le".toList) (by decide) (Or.inl (by decide))
    simpa [List.append_assoc] using h
  · have h := frames_then_tail jsonQuote jsonUnquote [ "ab".toList, "xy".toList ]
      ("Content-Length: 10\r\n\r\nabc".toList) (by decide)
      (Or.inr ⟨"abcdefghij".toList, "defghij".toList, by decide, by decide, by decide⟩)
    simpa [List.append_assoc] using h

/-- Claim C8: `parseMessages` never fails and never loops forever — the
loop reaches its final state within `buffer.length` iterations (any fuel
beyond the buffer length computes the fixed answer), and a malformed header
(a delimiter whose preceding text has no parseable Content-Length) is
skipped by advancing past the delimiter and continuing with the rest of the
buffer. -/
theorem parseMessages_total_and_skip (parse : List Char → Option α) :
    (∀ (buffer : List Char) (fuel : Nat), buffer.length < fuel →
      parseMessagesGo parse fuel buffer = parseMessages parse buffer) ∧
    (∀ (buffer : List Char) (h : Nat), indexOfSub crlfcrlf buffer = some h →
      headerMatch (buffer.take h) = none →
      parseMessages parse buffer = parseMessages parse (buffer.drop (h + 4))) := by
  constructor
  · intro buffer fuel hf
    exact parseMessagesGo_fuel parse fuel (buffer.length + 1) buffer hf (Nat.lt_succ_self _)
  · intro buffer h hidx hdr
    have hb := indexOfSub_crlf_bound _ _ hidx
    conv_lhs => rw [parseMessages]
    rw [parseMessagesGo_succ]
    simp only [hidx, hdr]
    exact parseMessagesGo_fuel parse buffer.length ((buffer.drop (h + 4)).length + 1) _
      (by rw [List.length_drop]; omega) (Nat.lt_succ_self _)

/-- Concrete instance: the malformed header `xx` is skipped; the buffer
after its delimiter is what parsing continues with. -/
theorem parseMessages_total_and_skip_witness :
    indexOfSub crlfcrlf ("xx\r\n\r\nyy".toList) = some 2 ∧
    parseMessages jsonUnquote ("xx\r\n\r\nyy".toList) =
      parseMessages jsonUnquote ("yy".toList) :=
  ⟨by decide,
    (parseMessages_total_and_skip jsonUnquote).2 ("xx\r\n\r\nyy".toList) 2
      (by decide) (by decide)⟩

/-! ## Lemmas about the diagnostics polling loop -/

theorem waitGo_none (entry : Nat → Option (List Diagnostic)) (timeoutMs : Nat) :
    ∀ (fuel k : Nat), (∀ j, k ≤ j → 100 * j < timeoutMs → entry j = none) →
      waitGo entry timeoutMs fuel k = [] := by
  intro fuel
  induction fuel with
  | zero =>
    intro k _
    rfl
  | succ fuel ih =>
    intro k h
    simp only [waitGo]
    by_cases hk : 100 * k < timeoutMs
    · rw [if_pos hk, h k (le_refl k) hk]
      exact ih (k + 1) (fun j hj hlt => h j (by omega) hlt)
    · rw [if_neg hk]

theorem waitGo_finds (entry : Nat → Option (List Diagnostic)) (timeoutMs : Nat)
    (k : Nat) (d : List Diagnostic) :
    ∀ (fuel k0 : Nat), k0 ≤ k → k - k0 < fuel → 100 * k < timeoutMs →
      (∀ j, k0 ≤ j → j < k → entry j = none) → entry k = some d →
      waitGo entry timeoutMs fuel k0 = d := by
  intro fuel
  induction fuel with
  | zero =>
    intro k0 _ h
    omega
  | succ fuel ih =>
    intro k0 hle hfuel hkt hnone hk
    simp only [waitGo]
    rcases Nat.eq_or_lt_of_le hle with heq | hlt
    · subst heq
      rw [if_pos hkt, hk]
    · have hk0t : 100 * k0 < timeoutMs := by
        have : 100 * k0 ≤ 100 * k := Nat.mul_le_mul_left 100 (le_of_lt hlt)
        omega
      rw [if_pos hk0t, hnone k0 (le_refl k0) hlt]
      exact ih (k0 + 1) (by omega) (by omega) hkt
        (fun j hj hjk => hnone j (by omega) hjk) hk

/-! ## Claim theorems: diagnostics queries -/

/-- Claim C2: `waitForDiagnostics` polls the diagnostics map at the fixed
100 ms interval (`entry k` is the map's entry for the queried uri at the
k-th poll, taken while `100 * k < timeoutMs`) until an entry appears or the
timeout elapses: if the entry first appears at a poll inside the timeout its
diagnostics are returned, and if no entry ever appears within the timeout
the result is the empty list — an ordinary value, not an error or a
rejection. -/
theorem waitForDiagnostics_spec (entry : Nat → Option (List Diagnostic))
    (timeoutMs : Nat) :
    ((∀ k, 100 * k < timeoutMs → entry k = none) →
      waitForDiagnostics entry timeoutMs = []) ∧
    (∀ k d, 100 * k < timeoutMs → (∀ j, j < k → entry j = none) →
      entry k = some d → waitForDiagnostics entry timeoutMs = d) := by
  constructor
  · intro h
    exact waitGo_none entry timeoutMs _ 0 (fun j _ hlt => h j hlt)
  · intro k d hkt hprev hk
    have hk100 : k * 100 ≤ timeoutMs := by omega
    have hkdiv : k ≤ timeoutMs / 100 := (Nat.le_div_iff_mul_le (by omega)).mpr hk100
    exact waitGo_finds entry timeoutMs k d _ 0 (Nat.zero_le k) (by omega) hkt
      (fun j _ hj => hprev j hj) hk

/-- Concrete instance: a 50 ms timeout with no push ever arriving returns
the empty list. -/
theorem waitForDiagnostics_spec_witness :
    waitForDiagnostics (fun _ => none) 50 = [] :=
  (waitForDiagnostics_spec (fun _ => none) 50).1 (fun _ _ => rfl)

/-- Claim C9: if the diagnostics map already holds an entry for the uri when
polling starts — including the empty entry left by a push that carried zero
diagnostics — `waitForDiagnostics` returns that entry at the very first poll
for any positive timeout (so an empty result can stem from a timeout or from
a genuinely empty push), and `getDiagnostics` of a uri with no entry is the
empty list rather than a failure. -/
theorem existing_entry_immediate :
    (∀ (entry : Nat → Option (List Diagnostic)) (timeoutMs : Nat) (d : List Diagnostic),
      0 < timeoutMs → entry 0 = some d → waitForDiagnostics entry timeoutMs = d) ∧
    (∀ (dm : String → Option (List Diagnostic)) (uri : String),
      dm uri = none → getDiagnostics dm uri = []) := by
  constructor
  · intro entry timeoutMs d ht h0
    exact waitGo_finds entry timeoutMs 0 d _ 0 (le_refl 0) (by omega) (by omega)
      (fun j _ hj => absurd hj (Nat.not_lt_zero j)) h0
  · intro dm uri h
    simp [getDiagnostics, h]

/-- Concrete instance: an already-present empty entry is returned without
exhausting the 5000 ms timeout, and a uri with no entry yields the empty
list. -/
theorem existing_entry_immediate_witness :
    waitForDiagnostics (fun _ => some []) 5000 = [] ∧
    getDiagnostics (fun _ => none) ("file:///a.rs") = [] :=
  ⟨existing_entry_immediate.1 (fun _ => some []) 5000 [] (by omega) rfl,
    existing_entry_immediate.2 (fun _ => none) ("file:///a.rs") rfl⟩

/-! ## Claim theorems: RPC client state -/

/-- Claim C3: when the 30-second timer of a request id fires while that id is
still pending — i.e. no response carrying the id arrived in time, since the
dispatch routine removes the id on arrival — exactly that request is settled,
with the timeout rejection, and its id is removed from the pending set; every
other pending id is untouched, and the diagnostics map, request counter,
buffer and transport connection are all unchanged (in particular the
connection is not torn down). -/
theorem fireTimeout_spec (s : ClientState) (i : Nat) (hp : s.pending i = true) :
    (fireTimeout s i).2 = some (Outcome.rejected i requestTimeoutMsg) ∧
    (fireTimeout s i).1.pending i = false ∧
    (∀ j, j ≠ i → (fireTimeout s i).1.pending j = s.pending j) ∧
    (fireTimeout s i).1.socketOpen = s.socketOpen ∧
    (fireTimeout s i).1.diagnostics = s.diagnostics ∧
    (fireTimeout s i).1.requestId = s.requestId ∧
    (fireTimeout s i).1.buffer = s.buffer := by
  rw [fireTimeout, if_pos hp]
  exact ⟨rfl, by simp, fun j hj => by simp [hj], rfl, rfl, rfl, rfl⟩

/-- A client with requests 1 and 2 in flight, used to instantiate the
timeout claim. -/
def exClient : ClientState :=
  { socketOpen := true
    buffer := []
    requestId := 2
    pending := fun j => decide (j = 1) || decide (j = 2)
    diagnostics := fun _ => none }

/-- Concrete instance: firing the timer for id 1 rejects exactly request 1,
keeps request 2 pending, and leaves the connection open. -/
theorem fireTimeout_spec_witness :
    (fireTimeout exClient 1).2 = some (Outcome.rejected 1 requestTimeoutMsg) ∧
    (fireTimeout exClient 1).1.pending 1 = false ∧
    (fireTimeout exClient 1).1.pending 2 = true ∧
    (fireTimeout exClient 1).1.socketOpen = true := by
  have h := fireTimeout_spec exClient 1 (by decide)
  refine ⟨h.1, h.2.1, ?keep, ?sock⟩
  · rw [h.2.2.1 2 (by decide)]
    decide
  · rw [h.2.2.2.1]
    rfl

/-- Claim C6: dispatching a diagnostics-push notification (a message with no
id whose method is `textDocument/publishDiagnostics`) replaces the
diagnostics-map entry for the notification's uri with exactly the carried
diagnostics — the previous sequence for that uri is wholly discarded, never
merged — leaves the entry of every other uri unchanged, settles no pending
request, and leaves the pending set as it was. -/
theorem publish_replaces_entry (s : ClientState) (msg : RpcMsg)
    (hid : msg.id? = none) (hm : msg.method? = some publishMethod) :
    (handleMessage s msg).1.diagnostics msg.uri = some msg.diags ∧
    (∀ u, u ≠ msg.uri → (handleMessage s msg).1.diagnostics u = s.diagnostics u) ∧
    (handleMessage s msg).2 = none ∧
    (handleMessage s msg).1.pending = s.pending := by
  unfold handleMessage
  simp only [hid]
  rw [if_pos hm]
  exact ⟨by simp, fun u hu => by simp [hu], rfl, rfl⟩

/-- A representative diagnostic, as in the stub-worker scenario. -/
def exDiag : Diagnostic :=
  { range := { start := { line := 0, character := 0 }, stop := { line := 0, character := 5 } }
    severity := some 1
    code := none
    source := none
    message := "stub error" }

/-- A diagnostics-push notification for `file:///a.rs`. -/
def exPushMsg : RpcMsg :=
  { id? := none
    error? := none
    result? := none
    method? := some publishMethod
    uri := "file:///a.rs"
    diags := [exDiag] }

/-- Concrete instance: after dispatching the push for `file:///a.rs`, that
uri's entry is exactly the pushed list and another uri's entry is
untouched. -/
theorem publish_replaces_entry_witness :
    (handleMessage initClient exPushMsg).1.diagnostics ("file:///a.rs") = some [exDiag] ∧
    (handleMessage initClient exPushMsg).1.diagnostics ("file:///b.rs") = none := by
  have h := publish_replaces_entry initClient exPushMsg rfl rfl
  refine ⟨h.1, ?other⟩
  rw [h.2.1 ("file:///b.rs") (by decide)]
  rfl

theorem handleMessage_requestId (s : ClientState) (msg : RpcMsg) :
    (handleMessage s msg).1.requestId = s.requestId := by
  unfold handleMessage
  repeat' split
  all_goals rfl

theorem fireTimeout_requestId (s : ClientState) (i : Nat) :
    (fireTimeout s i).1.requestId = s.requestId := by
  unfold fireTimeout
  split <;> rfl

theorem stepOp_requestId_le (s : ClientState) (op : ClientOp) :
    s.requestId ≤ (stepOp s op).1.requestId := by
  cases op with
  | issueRequest => exact Nat.le_succ s.requestId
  | deliver msg => exact le_of_eq (handleMessage_requestId s msg).symm
  | timeout i => exact le_of_eq (fireTimeout_requestId s i).symm

theorem stepOp_ids (s : ClientState) (op : ClientOp) :
    ∀ x ∈ (stepOp s op).2, x = s.requestId + 1 ∧
      (stepOp s op).1.requestId = s.requestId + 1 := by
  cases op with
  | issueRequest =>
    intro x hx
    simp only [stepOp, request, List.mem_singleton] at hx
    exact ⟨hx, rfl⟩
  | deliver msg =>
    intro x hx
    simp [stepOp] at hx
  | timeout i =>
    intro x hx
    simp [stepOp] at hx

theorem stepOp_ids_pairwise (s : ClientState) (op : ClientOp) :
    List.Pairwise (fun a b => a < b) (stepOp s op).2 := by
  cases op <;> simp [stepOp]

theorem runOps_ids (ops : List ClientOp) :
    ∀ s : ClientState,
      List.Pairwise (fun a b => a < b) (runOps s ops).2 ∧
      (∀ x ∈ (runOps s ops).2, s.requestId < x ∧ x ≤ (runOps s ops).1.requestId) ∧
      s.requestId ≤ (runOps s ops).1.requestId := by
  induction ops with
  | nil =>
    intro s
    exact ⟨List.Pairwise.nil, by simp [runOps], le_refl _⟩
  | cons op ops ih =>
    intro s
    obtain ⟨hpw, hmem, hmono⟩ := ih (stepOp s op).1
    have hle := stepOp_requestId_le s op
    have hids := stepOp_ids s op
    simp only [runOps]
    refine ⟨?pw, ?mem, le_trans hle hmono⟩
    · refine List.pairwise_append.mpr ⟨stepOp_ids_pairwise s op, hpw, ?cross⟩
      intro a ha b hb
      obtain ⟨ha1, ha2⟩ := hids a ha
      have hb1 := (hmem b hb).1
      omega
    · intro x hx
      rcases List.mem_append.mp hx with hx | hx
      · obtain ⟨hx1, hx2⟩ := hids x hx
        have := hmono
        omega
      · have h1 := (hmem x hx).1
        have h2 := (hmem x hx).2
        constructor
        · omega
        · exact h2

/-- Claim C10: over any sequence of client events starting from a freshly
constructed client, the request ids issued (`++this.requestId`) are strictly
increasing in order of issuance — each id is strictly greater than every id
issued before it, so no two requests of the client, in flight or long since
settled, ever share an id. -/
theorem request_ids_strictly_increase (ops : List ClientOp) :
    List.Pairwise (fun a b => a < b) (runOps initClient ops).2 :=
  (runOps_ids ops initClient).1

/-! ## Claim theorems: daemon state store and port allocation -/

/-- Claim C4: `getDaemonState` returns the persisted record unchanged (and
keeps the file) when the recorded process id is alive; when the process is
dead it deletes the record file and reports absent; and a missing or
malformed record file is treated as absent without raising — the parse
failure is swallowed, and no deletion is attempted in those cases. -/
theorem getDaemonState_spec (alive : Nat → Bool) (st : DaemonState) :
    getDaemonState alive StateFile.missing = (none, StateFile.missing) ∧
    getDaemonState alive StateFile.malformed = (none, StateFile.malformed) ∧
    (alive st.pid = true →
      getDaemonState alive (StateFile.valid st) = (some st, StateFile.valid st)) ∧
    (alive st.pid = false →
      getDaemonState alive (StateFile.valid st) = (none, StateFile.missing)) := by
  refine ⟨rfl, rfl, fun h => ?isAlive, fun h => ?isDead⟩
  · simp [getDaemonState, h]
  · simp [getDaemonState, h]

/-- A representative persisted daemon record. -/
def exRecord : DaemonState :=
  { pid := 7
    port := 19205
    projectPath := "/proj"
    startedAt := 1700000000
    initialized := false }

/-- Concrete instance: a record whose pid is alive is returned unchanged; the
same record with a dead pid is deleted and reported absent; a malformed file
is reported absent and left in place. -/
theorem getDaemonState_spec_witness :
    getDaemonState (fun p => decide (p = 7)) (StateFile.valid exRecord) =
      (some exRecord, StateFile.valid exRecord) ∧
    getDaemonState (fun _ => false) (StateFile.valid exRecord) =
      (none, StateFile.missing) ∧
    getDaemonState (fun _ => false) StateFile.malformed = (none, StateFile.malformed) :=
  ⟨(getDaemonState_spec (fun p => decide (p = 7)) exRecord).2.2.1 (by decide),
    (getDaemonState_spec (fun _ => false) exRecord).2.2.2 rfl,
    (getDaemonState_spec (fun _ => false) exRecord).2.1⟩

theorem findFreePortGo_spec (free : Nat → Bool) :
    ∀ (count st : Nat),
      (∀ p, findFreePortGo free st count = some p ↔
        (st ≤ p ∧ p < st + count ∧ free p = true ∧
          ∀ q, st ≤ q → q < p → free q = false)) ∧
      (findFreePortGo free st count = none ↔
        ∀ q, st ≤ q → q < st + count → free q = false) := by
  intro count
  induction count with
  | zero =>
    intro st
    constructor
    · intro p
      simp only [findFreePortGo]
      constructor
      · intro h
        cases h
      · rintro ⟨h1, h2, -⟩
        omega
    · simp only [findFreePortGo]
      constructor
      · intro _ q hq1 hq2
        omega
      · intro _
        trivial
  | succ count ih =>
    intro st
    by_cases hf : free st = true
    · constructor
      · intro p
        simp only [findFreePortGo, if_pos hf]
        constructor
        · intro h
          cases h
          exact ⟨le_refl st, by omega, hf, fun q hq1 hq2 => absurd hq1 (by omega)⟩
        · rintro ⟨h1, h2, h3, h4⟩
          have hps : p = st := by
            by_contra hne
            have hlt : st < p := by omega
            have := h4 st (le_refl st) hlt
            rw [hf] at this
            cases this
          rw [hps]
      · simp only [findFreePortGo, if_pos hf]
        constructor
        · intro h
          cases h
        · intro hall
          have := hall st (le_refl st) (by omega)
          rw [hf] at this
          cases this
    · have hneg : ¬ free st = true := hf
      have hff : free st = false := by
        cases h2 : free st
        · rfl
        · exact absurd h2 hneg
      constructor
      · intro p
        simp only [findFreePortGo, if_neg hneg]
        refine ((ih (st + 1)).1 p).trans ⟨?fwd, ?bwd⟩
        · rintro ⟨h1, h2, h3, h4⟩
          refine ⟨by omega, by omega, h3, fun q hq1 hq2 => ?_⟩
          rcases Nat.eq_or_lt_of_le hq1 with heq | hlt
          · rw [← heq]
            exact hff
          · exact h4 q (by omega) hq2
        · rintro ⟨h1, h2, h3, h4⟩
          refine ⟨?ge, by omega, h3, fun q hq1 hq2 => h4 q (by omega) hq2⟩
          rcases Nat.eq_or_lt_of_le h1 with heq | hlt
          · rw [← heq] at h3
            rw [h3] at hff
            cases hff
          · omega
      · simp only [findFreePortGo, if_neg hneg]
        refine ((ih (st + 1)).2).trans ⟨?fwd2, ?bwd2⟩
        · intro hall q hq1 hq2
          rcases Nat.eq_or_lt_of_le hq1 with heq | hlt
          · rw [← heq]
            exact hff
          · exact hall q (by omega) (by omega)
        · intro hall q hq1 hq2
          exact hall q (by omega) (by omega)

/-- Claim C5: the probe start for a project with numeric hash `hashVal` is
`BASE_PORT + hashVal % 100` (operator precedence: the modulus binds before
the addition); the allocator probes the 100 consecutive ports from that
offset in increasing order, returns the first port that binds, and fails
(the thrown allocation error, modelled as `none`) exactly when all 100
attempts fail. -/
theorem spawnDaemonPort_spec (free : Nat → Bool) (hashVal : Nat) :
    daemonStartPort hashVal = 19200 + hashVal % 100 ∧
    (∀ p, spawnDaemonPort free hashVal = some p ↔
      (daemonStartPort hashVal ≤ p ∧ p < daemonStartPort hashVal + 100 ∧ free p = true ∧
        ∀ q, daemonStartPort hashVal ≤ q → q < p → free q = false)) ∧
    (spawnDaemonPort free hashVal = none ↔
      ∀ q, daemonStartPort hashVal ≤ q → q < daemonStartPort hashVal + 100 →
        free q = false) :=
  ⟨rfl, (findFreePortGo_spec free 100 (daemonStartPort hashVal)).1,
    (findFreePortGo_spec free 100 (daemonStartPort hashVal)).2⟩

/-- Concrete instance: with hash value 7 the probe starts at 19207; if that
port is free it is returned, and if no port in the range binds the
allocation fails. -/
theorem spawnDaemonPort_spec_witness :
    spawnDaemonPort (fun p => decide (p = 19207)) 7 = some 19207 ∧
    spawnDaemonPort (fun _ => false) 7 = none := by
  constructor
  · exact ((spawnDaemonPort_spec (fun p => decide (p = 19207)) 7).2.1 19207).mpr
      ⟨by decide, by decide, by decide,
        fun q h1 h2 => absurd (lt_of_le_of_lt h1 h2) (by decide)⟩
  · exact (spawnDaemonPort_spec (fun _ => false) 7).2.2.mpr (fun q _ _ => rfl)
